import Mathlib

/-!
Verification of the A-share daily K-line acquisition pipeline
(`fetch_a_stock_kline.py`) and its companion validator (`verify_data_5m.py`).

Shallow embedding conventions:
* calendar dates are modelled as natural numbers (one unit = one day;
  the source's `YYYYMMDD` strings are totally ordered the same way as the
  corresponding days, and `strptime + timedelta(days=1) + strftime` is
  successor);
* prices, volumes and adjustment factors are modelled as rationals
  (the source uses machine floats; none of the claims below concern
  rounding, so exact arithmetic stands in for it);
* a pandas `DataFrame` is a list of rows; the persisted parquet file for a
  symbol is a `FileState`: absent, unreadable (any read raises), or a
  present list of rows;
* raised Python exceptions are `Except.error` carrying the message text.
-/

/-! ### Rows and persisted files -/

/-- One provider bar as returned by `ak.stock_zh_a_hist` (date plus the
columns the script consumes). -/
structure RawBar where
  date : Nat
  open_ : ℚ
  high : ℚ
  low : ℚ
  close : ℚ
  volume : ℚ
  amount : ℚ
  deriving DecidableEq

/-- One row of the normalized per-instrument table written by
`fetch_kline_daily` (column order: date, symbol, open, high, low, close,
volume, amount, adj_factor). -/
structure Bar where
  date : Nat
  symbol : String
  open_ : ℚ
  high : ℚ
  low : ℚ
  close : ℚ
  volume : ℚ
  amount : ℚ
  adj_factor : ℚ
  deriving DecidableEq

/-- State of the parquet file `KLINE_DIR/{symbol}.parquet`: missing,
present but unreadable (reading raises), or readable with the given rows. -/
inductive FileState (α : Type) : Type
  | absent : FileState α
  | corrupt : FileState α
  | present (rows : List α) : FileState α
  deriving DecidableEq

/-- Rows visible in a persisted file (empty when absent or unreadable). -/
def rowsOf {α : Type} : FileState α → List α
  | .absent => []
  | .corrupt => []
  | .present rows => rows

/-! ### Keyed-list machinery (pandas `drop_duplicates` / `sort_values`)

`save_to_parquet` deduplicates on the `date` column keeping the last
occurrence, then sorts ascending by `date`.  The definitions below mirror
those two pandas operations for an arbitrary key projection. -/

section ListKey

variable {α : Type} (key : α → Nat)

/-- The last element of `l` whose key is `d`, if any. -/
def lastD : List α → Nat → Option α
  | [], _ => none
  | x :: t, d =>
    match lastD t d with
    | some y => some y
    | none => if key x = d then some x else none

/-- `df.drop_duplicates(subset=['date'], keep='last')`: keep a row iff no
later row has the same key; kept rows stay in their original order. -/
def dropDupLast : List α → List α
  | [] => []
  | x :: t =>
    if t.any (fun y => key y == key x) then dropDupLast t
    else x :: dropDupLast t

/-- Insert one element into a key-sorted list. -/
def insertD (a : α) : List α → List α
  | [] => [a]
  | y :: t => if key a ≤ key y then a :: y :: t else y :: insertD a t

/-- `df.sort_values('date')` (ascending); on the duplicate-free keys this is
applied to, every correct sort produces this same list. -/
def sortByDate : List α → List α
  | [] => []
  | x :: t => insertD key x (sortByDate t)

/-- The merged table an append-mode save persists: concatenate existing and
new rows, drop duplicate dates keeping the newest row, sort ascending. -/
def appendMerge (existing df : List α) : List α :=
  sortByDate key (dropDupLast key (existing ++ df))

end ListKey

/-! ### Persistence Manager (`save_to_parquet`, `check_existing_data`) -/

/-- `save_to_parquet(df, symbol, mode)`.  In append mode with an existing
readable file: concat, drop duplicate dates keeping the new rows, sort by
date, write.  In append mode with an unreadable file, `pd.read_parquet`
raises.  Otherwise the new table is written as-is. -/
def save_to_parquet {α : Type} (key : α → Nat) (df : List α) (mode : String)
    (fs : FileState α) : Except String (FileState α) :=
  if mode = "append" then
    match fs with
    | .present existing => .ok (.present (appendMerge key existing df))
    | .corrupt => .error "ArrowInvalid: could not read parquet file"
    | .absent => .ok (.present df)
  else
    .ok (.present df)

/-- Maximum date of a table (`df['date'].max()`), 0 for the empty table on
which the source never calls it. -/
def latestDate (rows : List Bar) : Nat :=
  rows.foldl (fun m b => max m b.date) 0

/-- `check_existing_data(symbol)`: latest persisted date, or `None` when the
file is missing, unreadable (the exception is swallowed) or empty. -/
def check_existing_data (fs : FileState Bar) : Option Nat :=
  match fs with
  | .absent => none
  | .corrupt => none
  | .present [] => none
  | .present rows => some (latestDate rows)

/-! ### Adjustment Factor Resolver (`fetch_adj_factor`) -/

/-- Elementwise numpy division `df_qfq['收盘'].values / df_raw['收盘'].values`,
including numpy's length-1 broadcasting; incompatible lengths raise. -/
def npDivCloses (qfq raw : List RawBar) : Option (List ℚ) :=
  if qfq.length = raw.length then
    some (List.zipWith (fun q r => q.close / r.close) qfq raw)
  else
    match qfq, raw with
    | [q], _ => some (raw.map (fun r => q.close / r.close))
    | _, [r] => some (qfq.map (fun q => q.close / r.close))
    | _, _ => none

/-- `fetch_adj_factor(symbol, start, end)` given the provider's adjusted
(`qfq`) and unadjusted (`raw`) responses: `None` when either response is
empty; otherwise a frame pairing the raw dates with the elementwise close
ratios (the pairing is positional, not by date).  A length mismatch makes
numpy or the `DataFrame` constructor raise, which propagates. -/
def fetch_adj_factor (qfq raw : List RawBar) :
    Except String (Option (List (Nat × ℚ))) :=
  if qfq.isEmpty || raw.isEmpty then .ok none
  else
    match npDivCloses qfq raw with
    | none => .error "ValueError: operands could not be broadcast together"
    | some ratios =>
      if ratios.length = raw.length then
        .ok (some ((raw.map RawBar.date).zip ratios))
      else .error "ValueError: All arrays must be of the same length"

/-! ### Bar Fetcher (`fetch_kline_daily`) -/

/-- `df_kline.merge(df_adj, on='date', how='left')`: every kline row is
retained; it is paired with each factor row sharing its date, or with a
missing value when no factor row matches. -/
def mergeLeft (kline : List RawBar) (adj : List (Nat × ℚ)) :
    List (RawBar × Option ℚ) :=
  kline.flatMap (fun r =>
    match adj.filter (fun p => p.1 == r.date) with
    | [] => [(r, none)]
    | ms => ms.map (fun p => (r, some p.2)))

/-- `df['adj_factor'].ffill()`: replace each missing value by the nearest
earlier present value (the carry), if any. -/
def ffillGo : Option ℚ → List (RawBar × Option ℚ) → List (RawBar × Option ℚ)
  | _, [] => []
  | carry, (r, none) :: t => (r, carry) :: ffillGo carry t
  | _, (r, some v) :: t => (r, some v) :: ffillGo (some v) t

/-- `df['adj_factor'].fillna(1.0)`. -/
def fillna1 (l : List (RawBar × Option ℚ)) : List (RawBar × ℚ) :=
  l.map (fun p => (p.1, p.2.getD 1))

/-- Attach the symbol and select the final column order. -/
def toBars (symbol : String) (l : List (RawBar × ℚ)) : List Bar :=
  l.map (fun p =>
    { date := p.1.date, symbol := symbol, open_ := p.1.open_,
      high := p.1.high, low := p.1.low, close := p.1.close,
      volume := p.1.volume, amount := p.1.amount, adj_factor := p.2 })

/-- The factor frame actually joined: a missing or empty frame from
`fetch_adj_factor` degrades to a constant-1.0 series on the kline dates
(`if df_adj is None or df_adj.empty`). -/
def dfAdjOf (kline : List RawBar) (adjOpt : Option (List (Nat × ℚ))) :
    List (Nat × ℚ) :=
  match adjOpt with
  | none => kline.map (fun r => (r.date, (1 : ℚ)))
  | some l => if l.isEmpty then kline.map (fun r => (r.date, (1 : ℚ))) else l

/-- `fetch_kline_daily(symbol, start, end)` in terms of the three provider
responses it consumes: `kline` (the unadjusted bars of the first call) and
`qfq`/`raw` (the two calls made by `fetch_adj_factor`).  Empty kline data
yields `None`; a missing or empty factor frame degrades to a constant-1.0
series on the kline dates; the factor frame is left-joined on date,
forward-filled, and defaulted to 1.0. -/
def fetch_kline_daily (kline qfq raw : List RawBar) (symbol : String) :
    Except String (Option (List Bar)) :=
  if kline.isEmpty then .ok none
  else
    match fetch_adj_factor qfq raw with
    | .error e => .error e
    | .ok adjOpt =>
      .ok (some (toBars symbol (fillna1 (ffillGo none
        (mergeLeft kline (dfAdjOf kline adjOpt))))))

/-- Bool test used to phrase refutations: does the fetch succeed? -/
def isOkTable (r : Except String (Option (List Bar))) : Bool :=
  match r with
  | .ok _ => true
  | .error _ => false

/-! ### Spec-side description of the resolved factors (for claim C1) -/

/-- First factor row carrying a given date (`merge` matches by date). -/
def lookupD (adj : List (Nat × ℚ)) (d : Nat) : Option ℚ :=
  (adj.find? (fun p => p.1 == d)).map Prod.snd

/-- The factor sequence the spec describes, along the kline dates: a date
present in the factor series takes its value; a date absent from it takes
the nearest earlier resolved value, or 1.0 when none exists yet. -/
def resolveSpec (adj : List (Nat × ℚ)) : Option ℚ → List RawBar → List ℚ
  | _, [] => []
  | carry, r :: t =>
    match lookupD adj r.date with
    | some v => v :: resolveSpec adj (some v) t
    | none => carry.getD 1 :: resolveSpec adj carry t

/-- The positional factor series `fetch_adj_factor` builds from same-length
responses: raw dates paired with elementwise close ratios. -/
def directAdj (qfq raw : List RawBar) : List (Nat × ℚ) :=
  (raw.map RawBar.date).zip (List.zipWith (fun q r => q.close / r.close) qfq raw)

/-! ### Retry Wrapper (`retry_on_error`) -/

/-- Configuration constants of the script. -/
def MAX_RETRIES : Nat := 3

/-- Inter-request delay in seconds (`REQUEST_DELAY = 0.5`). -/
def REQUEST_DELAY : ℚ := 1 / 2

/-- Result of the wrapper: the wrapped value, the propagated exception, or
the `None` returned when the loop body never runs (`max_retries = 0`). -/
inductive RetryResult (A E : Type) : Type
  | success (a : A) : RetryResult A E
  | failure (e : E) : RetryResult A E
  | fellThrough : RetryResult A E
  deriving DecidableEq

/-- The wrapper's `for attempt in range(max_retries)` loop.  `op i` is the
outcome of the wrapped call on attempt `i` (0-indexed); `remaining` counts
the attempts still permitted.  The second component records the `time.sleep`
calls: `delay` after a success, `delay * (attempt + 1)` before each retry. -/
def retryGo {A E : Type} (op : Nat → Except E A) (maxRetries : Nat) (delay : ℚ) :
    Nat → Nat → RetryResult A E × List ℚ
  | _, 0 => (.fellThrough, [])
  | attempt, remaining + 1 =>
    match op attempt with
    | .ok a => (.success a, [delay])
    | .error e =>
      if attempt = maxRetries - 1 then (.failure e, [])
      else
        ((retryGo op maxRetries delay (attempt + 1) remaining).1,
          delay * ((attempt : ℚ) + 1) :: (retryGo op maxRetries delay (attempt + 1) remaining).2)

/-- `retry_on_error(func)` with the default parameters, applied to a
zero-argument operation whose per-attempt outcomes are `op`. -/
def retry_on_error {A E : Type} (op : Nat → Except E A) : RetryResult A E × List ℚ :=
  retryGo op MAX_RETRIES REQUEST_DELAY 0 MAX_RETRIES

/-! ### Orchestrator (`main`) -/

/-- Everything the main loop consults about one instrument: its identity,
the persisted file found on disk, and the behaviour of the fetch and save
calls (an `Except.error` is a raised exception). -/
structure SymbolBehavior : Type where
  symbol : String
  name : String
  existing : FileState Bar
  fetch : Nat → Nat → Except String (Option (List Bar))
  save : List Bar → Except String Unit

/-- The per-instrument outcome the loop records: skipped as already
current, success with the saved row count, no data, or a caught
exception's text. -/
inductive Outcome : Type
  | upToDate : Outcome
  | success (rows : Nat) : Outcome
  | noData : Outcome
  | errored (msg : String) : Outcome
  deriving DecidableEq

/-- Is the outcome a success-with-row-count? -/
def Outcome.isSuccess : Outcome → Bool
  | .success _ => true
  | _ => false

/-- Is the outcome the already-current skip? -/
def Outcome.isSkipped : Outcome → Bool
  | .upToDate => true
  | _ => false

/-- Is the outcome recorded in the failure list ("no data" or error text)? -/
def Outcome.isFailed : Outcome → Bool
  | .noData => true
  | .errored _ => true
  | _ => false

/-- Does the loop count the outcome in `success_count`? -/
def Outcome.countsSuccess : Outcome → Bool
  | .upToDate => true
  | .success _ => true
  | _ => false

/-- The effective start date used for the fetch: in incremental mode with a
latest persisted date `D`, start from `D + 1`; otherwise the requested
start date. -/
def effectiveStart (update : Bool) (startDate : Nat) (fs : FileState Bar) : Nat :=
  if update then
    match check_existing_data fs with
    | some d => d + 1
    | none => startDate
  else startDate

/-- The already-current test of the incremental branch: `args.update` holds,
a latest persisted date exists, and its next day is past the requested end
(the string comparison `start_date > args.end_date` on `YYYYMMDD` strings
agrees with the date order). -/
def skipCond (update : Bool) (endDate : Nat) (fs : FileState Bar) : Bool :=
  update &&
    match check_existing_data fs with
    | some d => decide (endDate < d + 1)
    | none => false

/-- One iteration of the main loop for one instrument, with the enclosing
`try/except` applied: the recorded outcome plus whether a fetch was issued. -/
structure StepResult : Type where
  outcome : Outcome
  fetchIssued : Bool
  deriving DecidableEq

/-- The body of the main loop for one instrument (`main`, lines 283-318):
in incremental mode an instrument whose next day lies beyond the requested
end is skipped without fetching; otherwise the fetch runs, `None`/empty
results are recorded as no data, and a save failure or any raised
exception is caught and recorded with its text. -/
def processSymbol (update : Bool) (startDate endDate : Nat)
    (b : SymbolBehavior) : StepResult :=
  if skipCond update endDate b.existing then ⟨.upToDate, false⟩
  else
    match b.fetch (effectiveStart update startDate b.existing) endDate with
    | .error e => ⟨.errored e, true⟩
    | .ok none => ⟨.noData, true⟩
    | .ok (some df) =>
      if df.isEmpty then ⟨.noData, true⟩
      else
        match b.save df with
        | .error e => ⟨.errored e, true⟩
        | .ok _ => ⟨.success df.length, true⟩

/-- The run statistics the loop accumulates. -/
structure Stats : Type where
  success_count : Nat
  failed_stocks : List (String × String × String)
  deriving DecidableEq

/-- How one instrument's outcome updates the statistics: skip and success
increment `success_count`; no data appends `(symbol, name, "无数据")`; a
caught exception appends its text. -/
def stepStock (update : Bool) (startDate endDate : Nat) (st : Stats)
    (b : SymbolBehavior) : Stats :=
  match (processSymbol update startDate endDate b).outcome with
  | .upToDate => { st with success_count := st.success_count + 1 }
  | .success _ => { st with success_count := st.success_count + 1 }
  | .noData =>
    { st with failed_stocks := st.failed_stocks ++ [(b.symbol, b.name, "无数据")] }
  | .errored e =>
    { st with failed_stocks := st.failed_stocks ++ [(b.symbol, b.name, e)] }

/-- The orchestrator's main loop over the instrument universe. -/
def mainLoop (update : Bool) (startDate endDate : Nat)
    (stocks : List SymbolBehavior) : Stats :=
  stocks.foldl (stepStock update startDate endDate) ⟨0, []⟩

/-! ### Storage locations and schemas (for claim C4) -/

namespace FetchKline

/-- `KLINE_DIR` of the acquisition script. -/
def KLINE_DIR : String := "data/kline_daily"

/-- Path the Persistence Manager writes for a symbol. -/
def filePath (symbol : String) : String :=
  KLINE_DIR ++ "/" ++ symbol ++ ".parquet"

/-- Columns of the table `fetch_kline_daily` produces and persists. -/
def outputColumns : List String :=
  ["date", "symbol", "open", "high", "low", "close", "volume", "amount", "adj_factor"]

end FetchKline

namespace VerifyData5m

/-- `KLINE_DIR` of the validator script. -/
def KLINE_DIR : String := "data/kline_5m"

/-- Path the validator reads for a symbol. -/
def filePath (symbol : String) : String :=
  KLINE_DIR ++ "/" ++ symbol ++ ".parquet"

/-- The time column the validator's quality report indexes
(`df['datetime']`). -/
def datetimeColumn : String := "datetime"

end VerifyData5m

/-! ### Example data used by witnesses and counterexamples -/

/-- A two-row table whose dates are out of order. -/
def outOfOrderTable : List Bar :=
  [{ date := 2, symbol := "000001", open_ := 1, high := 1, low := 1, close := 1,
     volume := 1, amount := 1, adj_factor := 1 },
   { date := 1, symbol := "000001", open_ := 1, high := 1, low := 1, close := 1,
     volume := 1, amount := 1, adj_factor := 1 }]

/-- A bar dated day 5. -/
def exBar5 : Bar :=
  { date := 5, symbol := "000001", open_ := 1, high := 1, low := 1, close := 1,
    volume := 1, amount := 1, adj_factor := 1 }

/-- An instrument whose persisted table already reaches day 5; any issued
fetch would report no data. -/
def exSkipB : SymbolBehavior :=
  { symbol := "000001", name := "", existing := .present [exBar5],
    fetch := fun _ _ => .ok none, save := fun _ => .ok () }

/-- An instrument whose fetch raises. -/
def exFailB : SymbolBehavior :=
  { symbol := "000002", name := "x", existing := .absent,
    fetch := fun _ _ => .error "boom", save := fun _ => .ok () }

/-- An operation that fails on attempts 0 and 1 and succeeds on attempt 2. -/
def opFailTwice : Nat → Except String Nat :=
  fun i => if i < 2 then .error (toString i) else .ok 42

/-- An operation that fails on every attempt. -/
def opAllFail : Nat → Except String Nat :=
  fun i => .error (toString i)

/-- Raw bar at day 1, close 10. -/
def d1bar : RawBar := { date := 1, open_ := 10, high := 10, low := 10, close := 10, volume := 100, amount := 1000 }

/-- Raw bar at day 2, close 10. -/
def d2bar : RawBar := { date := 2, open_ := 10, high := 10, low := 10, close := 10, volume := 100, amount := 1000 }

/-- Raw bar at day 3, close 30. -/
def d3bar : RawBar := { date := 3, open_ := 30, high := 30, low := 30, close := 30, volume := 100, amount := 1000 }

/-- Adjusted bar at day 1, close 5. -/
def d1qfq : RawBar := { date := 1, open_ := 5, high := 5, low := 5, close := 5, volume := 100, amount := 1000 }

/-- Adjusted bar at day 3, close 6. -/
def d3qfq : RawBar := { date := 3, open_ := 6, high := 6, low := 6, close := 6, volume := 100, amount := 1000 }

/-- Adjusted bar at day 1 whose close is 0 (a provider output the code
never guards against). -/
def qfqZero : RawBar := { date := 1, open_ := 0, high := 0, low := 0, close := 0, volume := 100, amount := 1000 }

/-- Adjusted bar at day 1, close 20. -/
def qfqPos : RawBar := { date := 1, open_ := 20, high := 20, low := 20, close := 20, volume := 100, amount := 1000 }

/-- The row `fetch_kline_daily` builds from `d1bar` when the adjusted close
is 0: its adjustment factor is 0. -/
def zeroFactorBar : Bar :=
  { date := 1, symbol := "000001", open_ := 10, high := 10, low := 10, close := 10,
    volume := 100, amount := 1000, adj_factor := 0 }

/-- The row `fetch_kline_daily` builds from `d1bar` when the adjusted close
is 20: its adjustment factor is 2. -/
def twoFactorBar : Bar :=
  { date := 1, symbol := "000001", open_ := 10, high := 10, low := 10, close := 10,
    volume := 100, amount := 1000, adj_factor := 2 }

/-! ### Lemmas about the keyed-list machinery -/

section ListKeyLemmas

variable {α : Type} {key : α → Nat}

theorem lastD_mem : ∀ {l : List α} {d : Nat} {x : α},
    lastD key l d = some x → x ∈ l ∧ key x = d := by
  intro l
  induction l with
  | nil => intro d x h; simp [lastD] at h
  | cons a t ih =>
    intro d x h
    simp only [lastD] at h
    cases ht : lastD key t d with
    | some y =>
      rw [ht] at h
      simp only [Option.some.injEq] at h
      subst h
      obtain ⟨hm, hk⟩ := ih ht
      exact ⟨List.mem_cons_of_mem _ hm, hk⟩
    | none =>
      rw [ht] at h
      by_cases hk : key a = d
      · rw [if_pos hk] at h
        simp only [Option.some.injEq] at h
        subst h
        exact ⟨List.mem_cons_self _ _, hk⟩
      · rw [if_neg hk] at h
        simp at h

theorem lastD_eq_none_iff {l : List α} {d : Nat} :
    lastD key l d = none ↔ ∀ y ∈ l, key y ≠ d := by
  induction l with
  | nil => simp [lastD]
  | cons a t ih =>
    simp only [lastD, List.mem_cons]
    cases ht : lastD key t d with
    | some z =>
      obtain ⟨hm, hk⟩ := lastD_mem ht
      constructor
      · intro h; exact absurd h (by simp)
      · intro h; exact absurd hk (h z (Or.inr hm))
    | none =>
      have hall := ih.mp ht
      by_cases hk : key a = d
      · rw [if_pos hk]
        constructor
        · intro h; exact absurd h (by simp)
        · intro h; exact absurd hk (h a (Or.inl rfl))
      · rw [if_neg hk]
        constructor
        · intro _ y hy
          rcases hy with rfl | hy
          · exact hk
          · exact hall y hy
        · intro _; rfl

theorem mem_dropDupLast {x : α} : ∀ {l : List α},
    x ∈ dropDupLast key l ↔ lastD key l (key x) = some x := by
  intro l
  induction l with
  | nil => simp [dropDupLast, lastD]
  | cons a t ih =>
    simp only [dropDupLast, lastD]
    by_cases hany : t.any (fun y => key y == key a) = true
    · rw [if_pos hany]
      obtain ⟨w, hw, hkw⟩ : ∃ w ∈ t, key w = key a := by
        simpa only [List.any_eq_true, beq_iff_eq] using hany
      cases ht : lastD key t (key x) with
      | some y => rw [ht] at ih; exact ih
      | none =>
        rw [ht] at ih
        rw [ih]
        by_cases hk : key a = key x
        · rw [if_pos hk]
          have hall := lastD_eq_none_iff.mp ht
          exact absurd (hkw.trans hk) (hall w hw)
        · rw [if_neg hk]
    · rw [if_neg hany]
      have hall : ∀ y ∈ t, key y ≠ key a := by
        intro y hy hky
        exact hany (List.any_eq_true.mpr ⟨y, hy, by simp [hky]⟩)
      cases ht : lastD key t (key x) with
      | some y =>
        rw [ht] at ih
        simp only [List.mem_cons, ih]
        constructor
        · intro h
          rcases h with rfl | h
          · obtain ⟨hm, hk⟩ := lastD_mem ht
            exact absurd hk (hall y hm)
          · exact h
        · intro h; exact Or.inr h
      | none =>
        rw [ht] at ih
        simp only [List.mem_cons, ih]
        by_cases hk : key a = key x
        · rw [if_pos hk]
          constructor
          · intro h
            rcases h with rfl | h
            · rfl
            · cases h
          · intro h
            simp only [Option.some.injEq] at h
            exact Or.inl h.symm
        · rw [if_neg hk]
          constructor
          · intro h
            rcases h with rfl | h
            · exact absurd rfl hk
            · cases h
          · intro h; cases h

theorem dropDupLast_subset {x : α} {l : List α}
    (h : x ∈ dropDupLast key l) : x ∈ l :=
  (lastD_mem (mem_dropDupLast.mp h)).1

theorem nodupKeys_dropDupLast : ∀ l : List α,
    ((dropDupLast key l).map key).Nodup := by
  intro l
  induction l with
  | nil => simp [dropDupLast]
  | cons a t ih =>
    simp only [dropDupLast]
    by_cases hany : t.any (fun y => key y == key a) = true
    · rw [if_pos hany]; exact ih
    · rw [if_neg hany]
      have hall : ∀ y ∈ t, key y ≠ key a := by
        intro y hy hky
        exact hany (List.any_eq_true.mpr ⟨y, hy, by simp [hky]⟩)
      simp only [List.map_cons, List.nodup_cons]
      refine ⟨?_, ih⟩
      intro hmem
      obtain ⟨y, hy, hky⟩ := List.mem_map.mp hmem
      exact hall y (dropDupLast_subset hy) hky

theorem lastD_append (l m : List α) (d : Nat) :
    lastD key (l ++ m) d =
      match lastD key m d with
      | some y => some y
      | none => lastD key l d := by
  induction l with
  | nil =>
    show lastD key m d = _
    cases lastD key m d <;> rfl
  | cons a t ih =>
    show (match lastD key (t ++ m) d with
          | some y => some y
          | none => if key a = d then some a else none) = _
    rw [ih]
    cases lastD key m d <;> rfl

theorem lastD_eq_some_iff_nodup {l : List α} {d : Nat} {x : α}
    (h : (l.map key).Nodup) :
    lastD key l d = some x ↔ (x ∈ l ∧ key x = d) := by
  constructor
  · exact lastD_mem
  · intro hx
    obtain ⟨hm, hk⟩ := hx
    subst hk
    induction l with
    | nil => cases hm
    | cons a t ih =>
      simp only [List.map_cons, List.nodup_cons] at h
      simp only [lastD]
      rcases List.mem_cons.mp hm with rfl | hmt
      · have ht : lastD key t (key x) = none := by
          rw [lastD_eq_none_iff]
          intro y hy hky
          exact h.1 (List.mem_map.mpr ⟨y, hy, hky⟩)
        rw [ht]; simp
      · rw [ih h.2 hmt]

theorem mem_insertD {x a : α} : ∀ {l : List α},
    x ∈ insertD key a l ↔ x = a ∨ x ∈ l := by
  intro l
  induction l with
  | nil => simp [insertD]
  | cons y t ih =>
    simp only [insertD]
    by_cases hle : key a ≤ key y
    · rw [if_pos hle]; simp
    · rw [if_neg hle]
      simp only [List.mem_cons, ih]
      tauto

theorem insertD_perm (a : α) : ∀ l : List α,
    List.Perm (insertD key a l) (a :: l) := by
  intro l
  induction l with
  | nil => exact List.Perm.refl _
  | cons y t ih =>
    simp only [insertD]
    by_cases hle : key a ≤ key y
    · rw [if_pos hle]
    · rw [if_neg hle]
      exact (ih.cons y).trans (List.Perm.swap a y t)

theorem sortByDate_perm : ∀ l : List α, List.Perm (sortByDate key l) l := by
  intro l
  induction l with
  | nil => exact List.Perm.refl _
  | cons x t ih =>
    simp only [sortByDate]
    exact (insertD_perm x (sortByDate key t)).trans (ih.cons x)

theorem mem_sortByDate {x : α} {l : List α} :
    x ∈ sortByDate key l ↔ x ∈ l :=
  (sortByDate_perm l).mem_iff

theorem sorted_insertD {a : α} : ∀ {l : List α},
    l.Pairwise (fun u v => key u ≤ key v) →
    (insertD key a l).Pairwise (fun u v => key u ≤ key v) := by
  intro l
  induction l with
  | nil => intro _; simp [insertD]
  | cons y t ih =>
    intro h
    obtain ⟨hy, ht⟩ := List.pairwise_cons.mp h
    simp only [insertD]
    by_cases hle : key a ≤ key y
    · rw [if_pos hle]
      refine List.pairwise_cons.mpr ⟨?_, h⟩
      intro z hz
      rcases List.mem_cons.mp hz with rfl | hz
      · exact hle
      · exact le_trans hle (hy z hz)
    · rw [if_neg hle]
      refine List.pairwise_cons.mpr ⟨?_, ih ht⟩
      intro z hz
      rcases mem_insertD.mp hz with rfl | hz
      · exact le_of_not_le hle
      · exact hy z hz

theorem sorted_sortByDate : ∀ l : List α,
    (sortByDate key l).Pairwise (fun u v => key u ≤ key v) := by
  intro l
  induction l with
  | nil => simp [sortByDate]
  | cons x t ih =>
    simp only [sortByDate]
    exact sorted_insertD ih

theorem pairwise_lt_of_nodup {l : List α}
    (hs : l.Pairwise (fun u v => key u ≤ key v))
    (hn : (l.map key).Nodup) :
    l.Pairwise (fun u v => key u < key v) := by
  have hn2 : l.Pairwise (fun u v => key u ≠ key v) := List.pairwise_map.mp hn
  exact (hs.and hn2).imp (fun h => lt_of_le_of_ne h.1 h.2)

theorem sorted_ext : ∀ (l₁ l₂ : List α),
    l₁.Pairwise (fun u v => key u < key v) →
    l₂.Pairwise (fun u v => key u < key v) →
    (∀ x, x ∈ l₁ ↔ x ∈ l₂) → l₁ = l₂ := by
  intro l₁
  induction l₁ with
  | nil =>
    intro l₂ _ _ hm
    cases l₂ with
    | nil => rfl
    | cons b t₂ => exact absurd ((hm b).mpr (List.mem_cons_self b t₂)) (by simp)
  | cons a t₁ ih =>
    intro l₂ h₁ h₂ hm
    obtain ⟨ha1, ht1⟩ := List.pairwise_cons.mp h₁
    cases l₂ with
    | nil => exact absurd ((hm a).mp (List.mem_cons_self a t₁)) (by simp)
    | cons b t₂ =>
      obtain ⟨hb2, ht2⟩ := List.pairwise_cons.mp h₂
      have hab : a = b := by
        have hamem : a ∈ b :: t₂ := (hm a).mp (List.mem_cons_self a t₁)
        have hbmem : b ∈ a :: t₁ := (hm b).mpr (List.mem_cons_self b t₂)
        rcases List.mem_cons.mp hamem with rfl | hat2
        · rfl
        · rcases List.mem_cons.mp hbmem with rfl | hbt1
          · rfl
          · exact absurd (lt_trans (ha1 b hbt1) (hb2 a hat2)) (lt_irrefl _)
      subst hab
      have htails : ∀ x, x ∈ t₁ ↔ x ∈ t₂ := by
        intro x
        constructor
        · intro hx
          rcases List.mem_cons.mp ((hm x).mp (List.mem_cons_of_mem a hx)) with rfl | hx2
          · exact absurd (ha1 x hx) (lt_irrefl _)
          · exact hx2
        · intro hx
          rcases List.mem_cons.mp ((hm x).mpr (List.mem_cons_of_mem a hx)) with rfl | hx1
          · exact absurd (hb2 x hx) (lt_irrefl _)
          · exact hx1
      rw [ih t₂ ht1 ht2 htails]

theorem nodupKeys_sortByDate {l : List α}
    (h : (l.map key).Nodup) : ((sortByDate key l).map key).Nodup :=
  (((sortByDate_perm l).map key).nodup_iff).mpr h

theorem appendMerge_sorted (existing df : List α) :
    (appendMerge key existing df).Pairwise (fun u v => key u < key v) :=
  pairwise_lt_of_nodup (sorted_sortByDate _)
    (nodupKeys_sortByDate (nodupKeys_dropDupLast _))

theorem nodupKeys_appendMerge (existing df : List α) :
    ((appendMerge key existing df).map key).Nodup :=
  nodupKeys_sortByDate (nodupKeys_dropDupLast _)

theorem mem_appendMerge {x : α} {existing df : List α} :
    x ∈ appendMerge key existing df ↔
      lastD key (existing ++ df) (key x) = some x :=
  mem_sortByDate.trans mem_dropDupLast

theorem appendMerge_idem (existing df : List α) :
    appendMerge key (appendMerge key existing df) df =
      appendMerge key existing df := by
  apply sorted_ext _ _ (appendMerge_sorted _ _) (appendMerge_sorted _ _)
  intro x
  rw [mem_appendMerge, lastD_append]
  cases hdf : lastD key df (key x) with
  | some y =>
    rw [mem_appendMerge, lastD_append, hdf]
  | none =>
    rw [lastD_eq_some_iff_nodup (nodupKeys_appendMerge existing df)]
    constructor
    · intro hx; exact hx.1
    · intro hm2; exact ⟨hm2, rfl⟩

end ListKeyLemmas

/-! ### Claim C2: append-mode persisted dates -/

/-- Claim C2 (amended).  When an existing readable table is present, the
table persisted by an append-mode save has strictly increasing,
duplicate-free dates, regardless of the overlap between existing and new
rows and of their ordering; when no table exists, append mode writes the
new table unchanged, so the invariant then holds only if the new table
already satisfies it. -/
theorem save_append_strict_dates (existing df : List Bar) :
    save_to_parquet Bar.date df "append" (.present existing)
      = .ok (.present (appendMerge Bar.date existing df)) ∧
    (appendMerge Bar.date existing df).Pairwise (fun u v : Bar => u.date < v.date) ∧
    save_to_parquet Bar.date df "append" FileState.absent = .ok (.present df) :=
  ⟨rfl, appendMerge_sorted existing df, rfl⟩

/-- Claim C2, counterexample to the claim as stated: in append mode with no
existing persisted table, `save_to_parquet` falls through to the overwrite
branch and persists the new table unchanged, so a new table with
out-of-order dates is persisted without strictly increasing dates. -/
theorem save_append_strict_dates_cex :
    save_to_parquet Bar.date outOfOrderTable "append" FileState.absent
      = .ok (.present outOfOrderTable) ∧
    ¬ outOfOrderTable.Pairwise (fun u v : Bar => u.date < v.date) :=
  ⟨rfl, by decide⟩

/-! ### Claim C6: append is idempotent -/

/-- Claim C6.  Starting from any persisted table, appending the same new
table twice yields the same persisted table as appending it once: duplicate
dates resolve to the newest row, so the second application is a no-op. -/
theorem save_append_idempotent (existing df : List Bar) :
    save_to_parquet Bar.date df "append" (.present existing)
      = .ok (.present (appendMerge Bar.date existing df)) ∧
    save_to_parquet Bar.date df "append" (.present (appendMerge Bar.date existing df))
      = .ok (.present (appendMerge Bar.date existing df)) := by
  refine ⟨rfl, ?_⟩
  show Except.ok (FileState.present (appendMerge Bar.date (appendMerge Bar.date existing df) df))
      = Except.ok (FileState.present (appendMerge Bar.date existing df))
  rw [appendMerge_idem]

/-! ### Lemmas about the orchestrator -/

theorem skipCond_iff (u : Bool) (e : Nat) (fs : FileState Bar) :
    skipCond u e fs = true ↔
      (u = true ∧ ∃ d, check_existing_data fs = some d ∧ e < d + 1) := by
  unfold skipCond
  cases hc : check_existing_data fs with
  | none => simp
  | some d =>
    simp only [Bool.and_eq_true, decide_eq_true_eq, Option.some.injEq]
    constructor
    · intro h; exact ⟨h.1, d, rfl, h.2⟩
    · intro h
      obtain ⟨hu, d2, hd2, hlt⟩ := h
      cases hd2
      exact ⟨hu, hlt⟩

theorem processSymbol_skip (u : Bool) (s e : Nat) (b : SymbolBehavior)
    (h : skipCond u e b.existing = true) :
    processSymbol u s e b = ⟨.upToDate, false⟩ := by
  unfold processSymbol
  rw [if_pos h]

theorem processSymbol_noSkip (u : Bool) (s e : Nat) (b : SymbolBehavior)
    (h : skipCond u e b.existing = false) :
    (processSymbol u s e b).outcome ≠ .upToDate ∧
      (processSymbol u s e b).fetchIssued = true := by
  unfold processSymbol
  rw [h]
  simp only [Bool.false_eq_true, if_false]
  cases b.fetch (effectiveStart u s b.existing) e with
  | error msg => exact ⟨by simp, rfl⟩
  | ok o =>
    cases o with
    | none => exact ⟨by simp, rfl⟩
    | some df =>
      by_cases hd : df.isEmpty = true
      · exact ⟨by simp [hd], by simp [hd]⟩
      · cases hs2 : b.save df with
        | error msg => exact ⟨by simp [hd, hs2], by simp [hd, hs2]⟩
        | ok un => exact ⟨by simp [hd, hs2], by simp [hd, hs2]⟩

theorem processSymbol_upToDate_iff (u : Bool) (s e : Nat) (b : SymbolBehavior) :
    (processSymbol u s e b).outcome = .upToDate ↔
      skipCond u e b.existing = true := by
  cases hsk : skipCond u e b.existing with
  | true => rw [processSymbol_skip u s e b hsk]; simp
  | false =>
    obtain ⟨hne, _⟩ := processSymbol_noSkip u s e b hsk
    simp [hne]

theorem processSymbol_skip_noFetch (u : Bool) (s e : Nat) (b : SymbolBehavior)
    (h : (processSymbol u s e b).outcome = .upToDate) :
    (processSymbol u s e b).fetchIssued = false := by
  rw [processSymbol_skip u s e b ((processSymbol_upToDate_iff u s e b).mp h)]

theorem processSymbol_noData_fetched (u : Bool) (s e : Nat) (b : SymbolBehavior)
    (h : (processSymbol u s e b).outcome = .noData) :
    (processSymbol u s e b).fetchIssued = true := by
  cases hsk : skipCond u e b.existing with
  | true => rw [processSymbol_skip u s e b hsk] at h; cases h
  | false => exact (processSymbol_noSkip u s e b hsk).2

theorem stepStock_char (u : Bool) (s e : Nat) (st : Stats) (b : SymbolBehavior) :
    (stepStock u s e st b = { st with success_count := st.success_count + 1 }) ∨
    (∃ ent, stepStock u s e st b
        = { st with failed_stocks := st.failed_stocks ++ [ent] }) := by
  cases h : (processSymbol u s e b).outcome with
  | upToDate => left; simp [stepStock, h]
  | success n => left; simp [stepStock, h]
  | noData => right; exact ⟨(b.symbol, b.name, "无数据"), by simp [stepStock, h]⟩
  | errored m => right; exact ⟨(b.symbol, b.name, m), by simp [stepStock, h]⟩

theorem stepStock_card (u : Bool) (s e : Nat) (st : Stats) (b : SymbolBehavior) :
    (stepStock u s e st b).success_count + (stepStock u s e st b).failed_stocks.length
      = st.success_count + st.failed_stocks.length + 1 := by
  rcases stepStock_char u s e st b with h | ⟨ent, h⟩
  · rw [h]
    show st.success_count + 1 + st.failed_stocks.length
        = st.success_count + st.failed_stocks.length + 1
    omega
  · rw [h]
    show st.success_count + (st.failed_stocks ++ [ent]).length
        = st.success_count + st.failed_stocks.length + 1
    rw [List.length_append]
    simp only [List.length_singleton]
    omega

theorem foldl_stepStock_card (u : Bool) (s e : Nat) :
    ∀ (stocks : List SymbolBehavior) (st : Stats),
    (stocks.foldl (stepStock u s e) st).success_count
      + (stocks.foldl (stepStock u s e) st).failed_stocks.length
      = st.success_count + st.failed_stocks.length + stocks.length := by
  intro stocks
  induction stocks with
  | nil => intro st; simp
  | cons b t ih =>
    intro st
    simp only [List.foldl_cons, List.length_cons]
    rw [ih, stepStock_card]
    omega

theorem foldl_stepStock_failed_mono (u : Bool) (s e : Nat) :
    ∀ (stocks : List SymbolBehavior) (st : Stats) (x : String × String × String),
    x ∈ st.failed_stocks → x ∈ (stocks.foldl (stepStock u s e) st).failed_stocks := by
  intro stocks
  induction stocks with
  | nil => intro st x h; exact h
  | cons b t ih =>
    intro st x h
    simp only [List.foldl_cons]
    apply ih
    rcases stepStock_char u s e st b with hc | ⟨ent, hc⟩
    · rw [hc]; exact h
    · rw [hc]
      exact List.mem_append.mpr (Or.inl h)

theorem foldl_stepStock_failed_mem (u : Bool) (s e : Nat) :
    ∀ (stocks : List SymbolBehavior) (st : Stats) (b : SymbolBehavior) (msg : String),
    b ∈ stocks → (processSymbol u s e b).outcome = .errored msg →
    (b.symbol, b.name, msg) ∈ (stocks.foldl (stepStock u s e) st).failed_stocks := by
  intro stocks
  induction stocks with
  | nil => intro st b msg h _; cases h
  | cons c t ih =>
    intro st b msg hmem hout
    simp only [List.foldl_cons]
    rcases List.mem_cons.mp hmem with rfl | hmem2
    · apply foldl_stepStock_failed_mono
      have hstep : stepStock u s e st b
          = { st with failed_stocks := st.failed_stocks ++ [(b.symbol, b.name, msg)] } := by
        simp [stepStock, hout]
      rw [hstep]
      exact List.mem_append.mpr (Or.inr (List.mem_singleton.mpr rfl))
    · exact ih (stepStock u s e st c) b msg hmem2 hout

/-! ### Claim C3: exactly one of three outcomes per instrument -/

/-- Claim C3.  For each instrument the loop records exactly one of three
mutually distinct outcomes — success (with row count), skipped (already
current) or failed ("no data" or error text); the skip outcome occurs
exactly when incremental mode finds a latest persisted date whose next day
is past the requested end, it issues no fetch, and it is thereby distinct
from a fetch that returns no rows (which does issue one). -/
theorem per_symbol_outcome (u : Bool) (s e : Nat) (b : SymbolBehavior) :
    ((processSymbol u s e b).outcome.isSkipped.toNat
      + (processSymbol u s e b).outcome.isSuccess.toNat
      + (processSymbol u s e b).outcome.isFailed.toNat = 1) ∧
    ((processSymbol u s e b).outcome = .upToDate ↔
      (u = true ∧ ∃ d, check_existing_data b.existing = some d ∧ e < d + 1)) ∧
    ((processSymbol u s e b).outcome = .upToDate →
      (processSymbol u s e b).fetchIssued = false) ∧
    ((processSymbol u s e b).outcome = .noData →
      (processSymbol u s e b).fetchIssued = true) := by
  refine ⟨?_, ?_, processSymbol_skip_noFetch u s e b, processSymbol_noData_fetched u s e b⟩
  · cases (processSymbol u s e b).outcome <;> rfl
  · exact (processSymbol_upToDate_iff u s e b).trans (skipCond_iff u e b.existing)

/-- Witness for C3 at a concrete instrument: persisted data through day 5,
requested end day 4, incremental mode: the recorded outcome is the skip,
no fetch is issued, and the three-way accounting holds. -/
theorem per_symbol_outcome_witness :
    (processSymbol true 0 4 exSkipB).outcome = .upToDate ∧
    (processSymbol true 0 4 exSkipB).fetchIssued = false ∧
    ((processSymbol true 0 4 exSkipB).outcome.isSkipped.toNat
      + (processSymbol true 0 4 exSkipB).outcome.isSuccess.toNat
      + (processSymbol true 0 4 exSkipB).outcome.isFailed.toNat = 1) :=
  have hskip : (processSymbol true 0 4 exSkipB).outcome = .upToDate :=
    (per_symbol_outcome true 0 4 exSkipB).2.1.mpr ⟨rfl, 5, rfl, by omega⟩
  ⟨hskip, (per_symbol_outcome true 0 4 exSkipB).2.2.1 hskip,
    (per_symbol_outcome true 0 4 exSkipB).1⟩

/-! ### Claim C8: incremental scheduling -/

/-- Claim C8.  With no usable prior data (missing, unreadable or empty file)
the effective start is the requested start; with prior data of latest date
`D` it is `D + 1`; and the instrument is skipped as already current, with no
fetch issued, exactly when that next day lies past the requested end. -/
theorem incremental_scheduling (s e dd : Nat) (fs : FileState Bar)
    (rows : List Bar) (b : SymbolBehavior) :
    check_existing_data FileState.absent = none ∧
    check_existing_data FileState.corrupt = none ∧
    check_existing_data (FileState.present ([] : List Bar)) = none ∧
    (rows ≠ [] → check_existing_data (.present rows) = some (latestDate rows)) ∧
    (check_existing_data fs = none → effectiveStart true s fs = s) ∧
    (check_existing_data fs = some dd → effectiveStart true s fs = dd + 1) ∧
    ((processSymbol true s e b).outcome = .upToDate ↔
      ∃ d, check_existing_data b.existing = some d ∧ e < d + 1) ∧
    ((processSymbol true s e b).outcome = .upToDate →
      (processSymbol true s e b).fetchIssued = false) := by
  refine ⟨rfl, rfl, rfl, ?_, ?_, ?_, ?_, processSymbol_skip_noFetch true s e b⟩
  · intro h
    cases rows with
    | nil => exact absurd rfl h
    | cons r t => rfl
  · intro h
    unfold effectiveStart
    rw [h]
    simp
  · intro h
    unfold effectiveStart
    rw [h]
    simp
  · rw [processSymbol_upToDate_iff, skipCond_iff]
    simp

/-- Witness for C8: a table through day 5 gives effective start day 6; with
requested end day 4 the instrument is already current; an absent file keeps
the requested start. -/
theorem incremental_scheduling_witness :
    check_existing_data (FileState.present [exBar5]) = some (latestDate [exBar5]) ∧
    effectiveStart true 0 FileState.absent = 0 ∧
    effectiveStart true 0 (FileState.present [exBar5]) = 6 ∧
    (processSymbol true 0 4 exSkipB).outcome = .upToDate :=
  ⟨(incremental_scheduling 0 4 5 (FileState.present [exBar5]) [exBar5] exSkipB).2.2.2.1
      (by simp),
   (incremental_scheduling 0 4 5 FileState.absent [exBar5] exSkipB).2.2.2.2.1 rfl,
   (incremental_scheduling 0 4 5 (FileState.present [exBar5]) [exBar5] exSkipB).2.2.2.2.2.1 rfl,
   (incremental_scheduling 0 4 5 (FileState.present [exBar5]) [exBar5] exSkipB).2.2.2.2.2.2.1.mpr
      ⟨5, rfl, by omega⟩⟩

/-! ### Claim C9: failure isolation in the main loop -/

/-- Claim C9.  No exception escapes the main loop: an instrument whose
processing raises is recorded in the failure list with its error text, and
the loop still accounts for every instrument of the universe (each one ends
up in the success count or the failure list). -/
theorem failure_isolation (u : Bool) (s e : Nat)
    (stocks : List SymbolBehavior) (b : SymbolBehavior) (msg : String) :
    (b ∈ stocks → (processSymbol u s e b).outcome = .errored msg →
      (b.symbol, b.name, msg) ∈ (mainLoop u s e stocks).failed_stocks) ∧
    (mainLoop u s e stocks).success_count
      + (mainLoop u s e stocks).failed_stocks.length = stocks.length := by
  constructor
  · intro hmem hout
    exact foldl_stepStock_failed_mem u s e stocks ⟨0, []⟩ b msg hmem hout
  · have h := foldl_stepStock_card u s e stocks ⟨0, []⟩
    simpa [mainLoop] using h

/-- Witness for C9: a universe of one instrument whose fetch raises
`"boom"`; the loop completes and records the failure with its text. -/
theorem failure_isolation_witness :
    ("000002", "x", "boom") ∈ (mainLoop false 0 10 [exFailB]).failed_stocks ∧
    (mainLoop false 0 10 [exFailB]).success_count
      + (mainLoop false 0 10 [exFailB]).failed_stocks.length = 1 :=
  ⟨(failure_isolation false 0 10 [exFailB] exFailB "boom").1
      (List.mem_singleton.mpr rfl) rfl,
   (failure_isolation false 0 10 [exFailB] exFailB "boom").2⟩

/-! ### Claim C10: statistics accounting -/

/-- Claim C10.  Each iterated instrument either increments the success
counter by exactly one with the failure list unchanged, or appends exactly
one failure entry with the counter unchanged — never both, never neither
(the combined tally rises by exactly one) — so at the end the success count
plus the number of recorded failures equals the number of instruments. -/
theorem stats_accounting (u : Bool) (s e : Nat) (stocks : List SymbolBehavior)
    (st : Stats) (b : SymbolBehavior) :
    ((stepStock u s e st b = { st with success_count := st.success_count + 1 }) ∨
      (∃ ent, stepStock u s e st b
          = { st with failed_stocks := st.failed_stocks ++ [ent] })) ∧
    ((stepStock u s e st b).success_count + (stepStock u s e st b).failed_stocks.length
      = st.success_count + st.failed_stocks.length + 1) ∧
    ((mainLoop u s e stocks).success_count
      + (mainLoop u s e stocks).failed_stocks.length = stocks.length) := by
  refine ⟨stepStock_char u s e st b, stepStock_card u s e st b, ?_⟩
  have h := foldl_stepStock_card u s e stocks ⟨0, []⟩
  simpa [mainLoop] using h

/-! ### Lemmas about the retry wrapper -/

theorem retryGo_success {A E : Type} (op : Nat → Except E A) (m : Nat) (d : ℚ)
    (a : A) :
    ∀ (k att rem : Nat), att + rem = m → k < rem →
    (∀ i, i < k → ∃ er, op (att + i) = .error er) →
    op (att + k) = .ok a →
    retryGo op m d att rem
      = (.success a, (List.range k).map (fun i : Nat => d * ((att : ℚ) + (i : ℚ) + 1)) ++ [d]) := by
  intro k
  induction k with
  | zero =>
    intro att rem hsum hk hf hs
    cases rem with
    | zero => omega
    | succ r =>
      rw [Nat.add_zero] at hs
      simp only [retryGo, hs, List.range_zero, List.map_nil, List.nil_append]
  | succ k ih =>
    intro att rem hsum hk hf hs
    cases rem with
    | zero => omega
    | succ r =>
      obtain ⟨er, her⟩ := hf 0 (Nat.succ_pos k)
      rw [Nat.add_zero] at her
      have hne : att ≠ m - 1 := by omega
      have hih := ih (att + 1) r (by omega) (by omega)
        (fun i hi => by
          have h2 := hf (i + 1) (by omega)
          rwa [show att + (i + 1) = att + 1 + i by omega] at h2)
        (by rwa [show att + 1 + k = att + (k + 1) by omega])
      simp only [retryGo, her, if_neg hne, hih]
      simp only [Prod.mk.injEq, true_and]
      rw [List.range_succ_eq_map, List.map_cons, List.map_map, List.cons_append]
      congr 1
      · push_cast
        ring
      · congr 1
        apply List.map_congr_left
        intro i _
        simp only [Function.comp_apply]
        push_cast
        ring

theorem retryGo_fail {A E : Type} (op : Nat → Except E A) (m : Nat) (d : ℚ)
    (e : E) :
    ∀ (rem att : Nat), att + rem = m → 1 ≤ rem →
    (∀ i, att ≤ i → i < m → ∃ er, op i = .error er) →
    op (m - 1) = .error e →
    retryGo op m d att rem
      = (.failure e, (List.range (m - 1 - att)).map (fun i : Nat => d * ((att : ℚ) + (i : ℚ) + 1))) := by
  intro rem
  induction rem with
  | zero => intro att h1 h2 _ _; omega
  | succ r ih =>
    intro att hsum hone hf hlast
    obtain ⟨er, her⟩ := hf att le_rfl (by omega)
    by_cases hatt : att = m - 1
    · have her2 : op att = Except.error e := by
        rw [hatt]
        exact hlast
      have hz : m - 1 - att = 0 := by omega
      simp only [retryGo, her2, if_pos hatt, hz, List.range_zero, List.map_nil]
    · have hr1 : 1 ≤ r := by omega
      have hih := ih (att + 1) (by omega) hr1
        (fun i hi1 hi2 => hf i (by omega) hi2) hlast
      simp only [retryGo, her, if_neg hatt, hih]
      simp only [Prod.mk.injEq, true_and]
      have hsplit : m - 1 - att = (m - 1 - (att + 1)) + 1 := by omega
      rw [hsplit, List.range_succ_eq_map, List.map_cons, List.map_map]
      congr 1
      · push_cast
        ring
      · apply List.map_congr_left
        intro i _
        simp only [Function.comp_apply]
        push_cast
        ring

/-! ### Claim C7: retry wrapper contract -/

/-- Claim C7.  The wrapper runs the wrapped operation up to `m` attempts
(`MAX_RETRIES = 3` by default, with base delay `REQUEST_DELAY = 0.5`): if
every attempt fails it re-raises the last attempt's error unchanged after
sleeping `d × attempt_number` before each retry; if attempt `k` succeeds
after `k` failures it returns the operation's result unchanged, sleeping the
backoffs and then the fixed minimum delay `d` after the success. -/
theorem retry_on_error_contract {A E : Type} (op : Nat → Except E A) (m : Nat)
    (d : ℚ) (e : E) (a : A) (k : Nat) :
    (1 ≤ m → (∀ i, i < m → ∃ er, op i = .error er) → op (m - 1) = .error e →
      retryGo op m d 0 m
        = (.failure e, (List.range (m - 1)).map (fun i : Nat => d * ((i : ℚ) + 1)))) ∧
    (k < m → (∀ i, i < k → ∃ er, op i = .error er) → op k = .ok a →
      retryGo op m d 0 m
        = (.success a, (List.range k).map (fun i : Nat => d * ((i : ℚ) + 1)) ++ [d])) ∧
    retry_on_error op = retryGo op MAX_RETRIES REQUEST_DELAY 0 MAX_RETRIES ∧
    MAX_RETRIES = 3 ∧ REQUEST_DELAY = 1 / 2 := by
  refine ⟨?_, ?_, rfl, rfl, rfl⟩
  · intro h1 h2 h3
    have h := retryGo_fail op m d e m 0 (by omega) h1 (fun i _ hi => h2 i hi) h3
    rw [h]
    simp
  · intro h1 h2 h3
    have h := retryGo_success op m d a k 0 m (by omega) h1
      (fun i hi => by simpa using h2 i hi) (by simpa using h3)
    rw [h]
    simp

/-- Witness for C7: with the default three attempts and half-second delay,
an operation failing twice then succeeding yields its value after sleeps
0.5 (backoff 1), 1.0 (backoff 2) and the final minimum 0.5; an operation
failing on all three attempts propagates the third attempt's error after
the two backoffs. -/
theorem retry_on_error_contract_witness :
    retry_on_error opFailTwice
      = (.success 42, (List.range 2).map (fun i : Nat => (1 / 2 : ℚ) * ((i : ℚ) + 1)) ++ [1 / 2]) ∧
    retry_on_error opAllFail
      = (.failure "2", (List.range 2).map (fun i : Nat => (1 / 2 : ℚ) * ((i : ℚ) + 1))) := by
  constructor
  · rw [(retry_on_error_contract opFailTwice 3 (1 / 2) "z" 42 2).2.2.1]
    exact (retry_on_error_contract opFailTwice 3 (1 / 2) "z" 42 2).2.1
      (by omega)
      (fun i hi => ⟨toString i, by
        have h2 : i = 0 ∨ i = 1 := by omega
        rcases h2 with rfl | rfl <;> rfl⟩)
      rfl
  · rw [(retry_on_error_contract opAllFail 3 (1 / 2) "2" 42 2).2.2.1]
    exact (retry_on_error_contract opAllFail 3 (1 / 2) "2" 42 2).1
      (by omega)
      (fun i hi => ⟨toString i, rfl⟩)
      rfl

/-! ### Lemmas about the factor merge -/

theorem filter_key_singleton {adj : List (Nat × ℚ)} {d : Nat}
    (h : (adj.map Prod.fst).Nodup) :
    adj.filter (fun p => p.1 == d)
      = match adj.find? (fun p => p.1 == d) with
        | none => []
        | some p => [p] := by
  induction adj with
  | nil => rfl
  | cons a t ih =>
    simp only [List.map_cons, List.nodup_cons] at h
    by_cases hd : a.1 = d
    · have hft : t.filter (fun p => p.1 == d) = [] := by
        rw [List.filter_eq_nil_iff]
        intro p hp
        simp only [beq_iff_eq]
        intro he
        exact h.1 (List.mem_map.mpr ⟨p, hp, by rw [he, hd]⟩)
      rw [List.filter_cons, List.find?_cons]
      simp only [hd, beq_self_eq_true, if_true, hft]
    · have hbd : (a.1 == d) = false := by simp [hd]
      rw [List.filter_cons, List.find?_cons, hbd]
      simp only [Bool.false_eq_true, if_false]
      exact ih h.2

theorem mergeRow_eq (adj : List (Nat × ℚ)) (r : RawBar)
    (h : (adj.map Prod.fst).Nodup) :
    (match adj.filter (fun p => p.1 == r.date) with
      | [] => [(r, (none : Option ℚ))]
      | ms => ms.map (fun p => (r, some p.2)))
      = [(r, lookupD adj r.date)] := by
  rw [filter_key_singleton h]
  cases hf : adj.find? (fun p => p.1 == r.date) with
  | none => simp [lookupD, hf]
  | some p => simp [lookupD, hf]

theorem mergeLeft_eq_map {adj : List (Nat × ℚ)} (kline : List RawBar)
    (h : (adj.map Prod.fst).Nodup) :
    mergeLeft kline adj = kline.map (fun r => (r, lookupD adj r.date)) := by
  induction kline with
  | nil => rfl
  | cons r t ih =>
    show (match adj.filter (fun p => p.1 == r.date) with
        | [] => [(r, (none : Option ℚ))]
        | ms => ms.map (fun p => (r, some p.2))) ++ mergeLeft t adj
      = (r, lookupD adj r.date) :: t.map (fun r => (r, lookupD adj r.date))
    rw [mergeRow_eq adj r h, ih]
    rfl

theorem lookupD_mem_nodup {adj : List (Nat × ℚ)} {p : Nat × ℚ}
    (h : (adj.map Prod.fst).Nodup) (hm : p ∈ adj) :
    lookupD adj p.1 = some p.2 := by
  induction adj with
  | nil => cases hm
  | cons a t ih =>
    simp only [List.map_cons, List.nodup_cons] at h
    rcases List.mem_cons.mp hm with rfl | hmt
    · unfold lookupD
      rw [List.find?_cons]
      simp
    · have hne : (a.1 == p.1) = false := by
        simp only [beq_eq_false_iff_ne, ne_eq]
        intro he
        exact h.1 (List.mem_map.mpr ⟨p, hmt, he.symm⟩)
      unfold lookupD
      rw [List.find?_cons, hne]
      simp only [Bool.false_eq_true, if_false]
      exact ih h.2 hmt

theorem ffill_resolveSpec (adj : List (Nat × ℚ)) :
    ∀ (kline : List RawBar) (carry : Option ℚ),
    fillna1 (ffillGo carry (kline.map (fun r => (r, lookupD adj r.date))))
      = kline.zip (resolveSpec adj carry kline) := by
  intro kline
  induction kline with
  | nil => intro carry; rfl
  | cons r t ih =>
    intro carry
    cases hl : lookupD adj r.date with
    | none =>
      rw [List.map_cons, hl]
      have hres : resolveSpec adj carry (r :: t) = carry.getD 1 :: resolveSpec adj carry t := by
        simp only [resolveSpec, hl]
      rw [hres, List.zip_cons_cons]
      show (r, carry.getD 1) :: fillna1 (ffillGo carry (t.map (fun r2 => (r2, lookupD adj r2.date))))
        = (r, carry.getD 1) :: t.zip (resolveSpec adj carry t)
      rw [ih carry]
    | some v =>
      rw [List.map_cons, hl]
      have hres : resolveSpec adj carry (r :: t) = v :: resolveSpec adj (some v) t := by
        simp only [resolveSpec, hl]
      rw [hres, List.zip_cons_cons]
      show (r, v) :: fillna1 (ffillGo (some v) (t.map (fun r2 => (r2, lookupD adj r2.date))))
        = (r, v) :: t.zip (resolveSpec adj (some v) t)
      rw [ih (some v)]

theorem fetch_adj_factor_eq (qfq raw : List RawBar) (hr : raw ≠ [])
    (hlen : qfq.length = raw.length) :
    fetch_adj_factor qfq raw = .ok (some (directAdj qfq raw)) := by
  have hq : qfq ≠ [] := by
    intro he
    subst he
    simp only [List.length_nil] at hlen
    exact hr (List.length_eq_zero.mp hlen.symm)
  have h1 : (qfq.isEmpty || raw.isEmpty) = false := by
    simp [List.isEmpty_iff, hq, hr]
  unfold fetch_adj_factor npDivCloses
  rw [h1]
  simp only [Bool.false_eq_true, if_false, if_pos hlen]
  have h2 : (List.zipWith (fun q r => q.close / r.close) qfq raw).length = raw.length := by
    rw [List.length_zipWith, hlen, Nat.min_self]
  rw [if_pos h2]
  rfl

theorem directAdj_keys (qfq raw : List RawBar) (hlen : qfq.length = raw.length) :
    (directAdj qfq raw).map Prod.fst = raw.map RawBar.date := by
  unfold directAdj
  apply List.map_fst_zip
  rw [List.length_map, List.length_zipWith, hlen, Nat.min_self]

theorem directAdj_length (qfq raw : List RawBar) (hlen : qfq.length = raw.length) :
    (directAdj qfq raw).length = raw.length := by
  unfold directAdj
  rw [List.length_zip, List.length_map, List.length_zipWith, hlen, Nat.min_self,
    Nat.min_self]

/-! ### Claim C1: adjustment factor resolution -/

/-- Claim C1 (amended).  `fetch_adj_factor` pairs the adjusted and raw
responses positionally, not by date: with same-length responses the factor
series is `(raw[i].date, qfq[i].close / raw[i].close)` (so the direct
per-date ratio holds exactly when the two responses list the same dates in
the same order), and mismatched lengths raise instead of aligning by date.
The carrying-forward happens in `fetch_kline_daily`'s merge: a kline date
present in the factor series takes that series' value, and a kline date
absent from it takes the nearest earlier resolved factor, or 1.0 when none
exists yet — which is exactly `resolveSpec` along the kline rows. -/
theorem adj_factor_resolution (kline qfq raw : List RawBar) (s : String)
    (hk : kline ≠ []) (hr : raw ≠ []) (hlen : qfq.length = raw.length)
    (hnd : (raw.map RawBar.date).Nodup) :
    fetch_kline_daily kline qfq raw s
      = .ok (some (toBars s (kline.zip (resolveSpec (directAdj qfq raw) none kline)))) ∧
    (directAdj qfq raw).map Prod.fst = raw.map RawBar.date ∧
    (∀ p ∈ directAdj qfq raw, lookupD (directAdj qfq raw) p.1 = some p.2) := by
  have hkeys := directAdj_keys qfq raw hlen
  have hndadj : ((directAdj qfq raw).map Prod.fst).Nodup := by
    rw [hkeys]; exact hnd
  refine ⟨?_, hkeys, fun p hp => lookupD_mem_nodup hndadj hp⟩
  have hke : kline.isEmpty = false := by simp [List.isEmpty_iff, hk]
  have hlen2 := directAdj_length qfq raw hlen
  have hne2 : (directAdj qfq raw).isEmpty = false := by
    cases hda : directAdj qfq raw with
    | nil =>
      rw [hda] at hlen2
      simp only [List.length_nil] at hlen2
      exact absurd (List.length_eq_zero.mp hlen2.symm) hr
    | cons a t2 => rfl
  unfold fetch_kline_daily
  rw [hke]
  simp only [Bool.false_eq_true, if_false]
  rw [fetch_adj_factor_eq qfq raw hr hlen]
  show Except.ok (some (toBars s (fillna1 (ffillGo none
      (mergeLeft kline (dfAdjOf kline (some (directAdj qfq raw))))))))
    = Except.ok (some (toBars s (kline.zip (resolveSpec (directAdj qfq raw) none kline))))
  have hdf : dfAdjOf kline (some (directAdj qfq raw)) = directAdj qfq raw := by
    show (if (directAdj qfq raw).isEmpty = true then
        kline.map (fun r => (r.date, (1 : ℚ))) else directAdj qfq raw)
      = directAdj qfq raw
    rw [hne2]
    simp
  rw [hdf, mergeLeft_eq_map kline hndadj, ffill_resolveSpec]

/-- Witness for C1, the spec's own scenario transposed to what the code
actually does: the kline fetch returns days 1, 2, 3 while the resolver's two
calls both return only days 1 and 3, so the factor series lives on days 1
and 3; day 1 gets 5/10, day 3 gets 6/30, and day 2 — absent from the factor
series — carries day 1's factor forward. -/
theorem adj_factor_resolution_witness :
    fetch_kline_daily [d1bar, d2bar, d3bar] [d1qfq, d3qfq] [d1bar, d3bar] "000001"
      = .ok (some (toBars "000001" ([d1bar, d2bar, d3bar].zip
          (resolveSpec (directAdj [d1qfq, d3qfq] [d1bar, d3bar]) none
            [d1bar, d2bar, d3bar])))) ∧
    resolveSpec (directAdj [d1qfq, d3qfq] [d1bar, d3bar]) none [d1bar, d2bar, d3bar]
      = [1 / 2, 1 / 2, 1 / 5] :=
  ⟨(adj_factor_resolution [d1bar, d2bar, d3bar] [d1qfq, d3qfq] [d1bar, d3bar] "000001"
      (by decide) (by decide) (by decide) (by decide)).1,
   by
    have h : resolveSpec (directAdj [d1qfq, d3qfq] [d1bar, d3bar]) none
        [d1bar, d2bar, d3bar] = [(5 : ℚ) / 10, 5 / 10, 6 / 30] := rfl
    rw [h]
    norm_num⟩

/-- Claim C1, counterexample to the claim as stated: give the resolver a raw
series on days 1, 2, 3 and an adjusted series on days 1 and 3 only (the
claim's own scenario).  The claim requires factors at days 1 and 3 computed
per date and day 2 forward-filled; the code instead divides the two close
arrays positionally, numpy rejects the 2-versus-3 shapes, and the whole
fetch fails with an exception — no factor series is produced at all. -/
theorem adj_factor_resolution_cex :
    fetch_kline_daily [d1bar, d2bar, d3bar] [d1qfq, d3qfq] [d1bar, d2bar, d3bar] "000001"
      = .error "ValueError: operands could not be broadcast together" ∧
    isOkTable (fetch_kline_daily [d1bar, d2bar, d3bar] [d1qfq, d3qfq]
      [d1bar, d2bar, d3bar] "000001") = false := by
  constructor
  · rfl
  · rfl

/-! ### Lemmas about factor positivity -/

theorem of_mem_zipWith {β γ δ : Type} {f : β → γ → δ} {x : δ} :
    ∀ {as : List β} {bs : List γ}, x ∈ List.zipWith f as bs →
      ∃ a, a ∈ as ∧ ∃ b, b ∈ bs ∧ x = f a b := by
  intro as
  induction as with
  | nil => intro bs h; simp at h
  | cons a t ih =>
    intro bs h
    cases bs with
    | nil => simp at h
    | cons b u =>
      rw [List.zipWith_cons_cons] at h
      rcases List.mem_cons.mp h with rfl | h2
      · exact ⟨a, List.mem_cons_self _ _, b, List.mem_cons_self _ _, rfl⟩
      · obtain ⟨a2, ha2, b2, hb2, hx⟩ := ih h2
        exact ⟨a2, List.mem_cons_of_mem _ ha2, b2, List.mem_cons_of_mem _ hb2, hx⟩

theorem npDivCloses_pos {qfq raw : List RawBar} {ratios : List ℚ}
    (hq : ∀ q ∈ qfq, 0 < q.close) (hr : ∀ r ∈ raw, 0 < r.close)
    (h : npDivCloses qfq raw = some ratios) :
    ∀ v ∈ ratios, 0 < v := by
  unfold npDivCloses at h
  by_cases hlen : qfq.length = raw.length
  · rw [if_pos hlen] at h
    simp only [Option.some.injEq] at h
    subst h
    intro v hv
    obtain ⟨q, hq2, r, hr2, rfl⟩ := of_mem_zipWith hv
    exact div_pos (hq q hq2) (hr r hr2)
  · rw [if_neg hlen] at h
    rcases qfq with _ | ⟨q, qt⟩
    · rcases raw with _ | ⟨r, rt⟩
      · cases h
      · rcases rt with _ | ⟨r2, rt2⟩
        · simp only [Option.some.injEq] at h
          subst h
          intro v hv
          simp at hv
        · cases h
    · rcases qt with _ | ⟨q2, qt2⟩
      · simp only [Option.some.injEq] at h
        subst h
        intro v hv
        obtain ⟨r, hr2, rfl⟩ := List.mem_map.mp hv
        exact div_pos (hq q (List.mem_cons_self _ _)) (hr r hr2)
      · rcases raw with _ | ⟨r, rt⟩
        · cases h
        · rcases rt with _ | ⟨r2, rt2⟩
          · simp only [Option.some.injEq] at h
            subst h
            intro v hv
            obtain ⟨q3, hq3, rfl⟩ := List.mem_map.mp hv
            exact div_pos (hq q3 hq3) (hr r (List.mem_cons_self _ _))
          · cases h

theorem fetch_adj_factor_pos {qfq raw : List RawBar} {l : List (Nat × ℚ)}
    (hq : ∀ q ∈ qfq, 0 < q.close) (hr : ∀ r ∈ raw, 0 < r.close)
    (h : fetch_adj_factor qfq raw = .ok (some l)) :
    ∀ p ∈ l, 0 < p.2 := by
  unfold fetch_adj_factor at h
  by_cases he : (qfq.isEmpty || raw.isEmpty) = true
  · rw [if_pos he] at h
    simp at h
  · rw [if_neg he] at h
    cases hnp : npDivCloses qfq raw with
    | none => rw [hnp] at h; cases h
    | some ratios =>
      rw [hnp] at h
      have h2 : (if ratios.length = raw.length then
            Except.ok (some ((raw.map RawBar.date).zip ratios))
          else (Except.error "ValueError: All arrays must be of the same length" :
            Except String (Option (List (Nat × ℚ))))) = Except.ok (some l) := h
      by_cases hlen : ratios.length = raw.length
      · rw [if_pos hlen] at h2
        simp only [Except.ok.injEq, Option.some.injEq] at h2
        subst h2
        intro p hp
        obtain ⟨d, v⟩ := p
        exact npDivCloses_pos hq hr hnp v (List.of_mem_zip hp).2
      · rw [if_neg hlen] at h2
        cases h2

theorem mergeLeft_some_val {kline : List RawBar} {adj : List (Nat × ℚ)}
    {r : RawBar} {v : ℚ}
    (h : (r, some v) ∈ mergeLeft kline adj) : ∃ p ∈ adj, p.2 = v := by
  unfold mergeLeft at h
  obtain ⟨r2, _, hm⟩ := List.mem_flatMap.mp h
  cases hfil : adj.filter (fun p => p.1 == r2.date) with
  | nil =>
    rw [hfil] at hm
    simp only [List.mem_singleton, Prod.mk.injEq] at hm
    cases hm.2
  | cons p ps =>
    rw [hfil] at hm
    obtain ⟨p2, hp2, hpe⟩ := List.mem_map.mp hm
    simp only [Prod.mk.injEq, Option.some.injEq] at hpe
    refine ⟨p2, ?_, hpe.2⟩
    have hp3 : p2 ∈ adj.filter (fun p => p.1 == r2.date) := by
      rw [hfil]; exact hp2
    exact (List.mem_filter.mp hp3).1

theorem dfAdjOf_pos {kline : List RawBar} {adjOpt : Option (List (Nat × ℚ))}
    (hpos : ∀ l, adjOpt = some l → ∀ p ∈ l, 0 < p.2) :
    ∀ p ∈ dfAdjOf kline adjOpt, 0 < p.2 := by
  intro p hp
  cases adjOpt with
  | none =>
    unfold dfAdjOf at hp
    obtain ⟨r, _, hpe⟩ := List.mem_map.mp hp
    rw [← hpe]
    norm_num
  | some l =>
    have hp0 : p ∈ (if l.isEmpty = true then
        kline.map (fun r => (r.date, (1 : ℚ))) else l) := hp
    by_cases hl : l.isEmpty = true
    · rw [if_pos hl] at hp0
      obtain ⟨r, _, hpe⟩ := List.mem_map.mp hp0
      rw [← hpe]
      norm_num
    · rw [if_neg hl] at hp0
      exact hpos l rfl p hp0

theorem ffill_fillna_pos :
    ∀ (m : List (RawBar × Option ℚ)),
    (∀ r v, (r, some v) ∈ m → 0 < v) →
    ∀ (carry : Option ℚ), (∀ c, carry = some c → 0 < c) →
    ∀ p ∈ fillna1 (ffillGo carry m), 0 < p.2 := by
  intro m
  induction m with
  | nil => intro _ carry _ p hp; simp [ffillGo, fillna1] at hp
  | cons x t ih =>
    intro hm carry hc p hp
    obtain ⟨r, o⟩ := x
    cases o with
    | none =>
      rw [show ffillGo carry ((r, none) :: t) = (r, carry) :: ffillGo carry t from rfl,
        show fillna1 ((r, carry) :: ffillGo carry t)
          = (r, carry.getD 1) :: fillna1 (ffillGo carry t) from rfl] at hp
      rcases List.mem_cons.mp hp with rfl | hp2
      · cases carry with
        | none => exact one_pos
        | some c => exact hc c rfl
      · exact ih (fun r2 v hv => hm r2 v (List.mem_cons_of_mem _ hv)) carry hc p hp2
    | some v =>
      have hv : 0 < v := hm r v (List.mem_cons_self _ _)
      rw [show ffillGo carry ((r, some v) :: t) = (r, some v) :: ffillGo (some v) t from rfl,
        show fillna1 ((r, some v) :: ffillGo (some v) t)
          = (r, v) :: fillna1 (ffillGo (some v) t) from rfl] at hp
      rcases List.mem_cons.mp hp with rfl | hp2
      · exact hv
      · exact ih (fun r2 v2 hv2 => hm r2 v2 (List.mem_cons_of_mem _ hv2)) (some v)
          (fun c hce => by
            injection hce with hce2
            rw [← hce2]
            exact hv) p hp2

theorem toBars_factor {s : String} {l : List (RawBar × ℚ)} {b : Bar}
    (h : b ∈ toBars s l) : ∃ p ∈ l, b.adj_factor = p.2 := by
  obtain ⟨p, hp, hpe⟩ := List.mem_map.mp h
  exact ⟨p, hp, by rw [← hpe]⟩

/-! ### Claim C5: adjustment factor never null, positivity -/

/-- Claim C5 (amended).  After the left join, forward fill and 1.0 default,
every row of a fetched table carries a factor value (no nulls remain), and
every factor is strictly positive provided all adjusted and raw closes
returned by the provider are strictly positive; under that proviso
positivity survives persisting in either mode onto any file whose rows
already satisfy it.  (Unconditional positivity fails: the code never guards
the close ratio, see the counterexample.) -/
theorem adj_factor_positive (kline qfq raw : List RawBar) (s mode : String)
    (fs fs2 : FileState Bar) (t : List Bar)
    (hq : ∀ q ∈ qfq, 0 < q.close) (hr : ∀ r ∈ raw, 0 < r.close)
    (hfs : ∀ x ∈ rowsOf fs, 0 < x.adj_factor)
    (hfetch : fetch_kline_daily kline qfq raw s = .ok (some t)) :
    (∀ x ∈ t, 0 < x.adj_factor) ∧
    (save_to_parquet Bar.date t mode fs = .ok fs2 →
      ∀ x ∈ rowsOf fs2, 0 < x.adj_factor) := by
  have hpost : ∀ x ∈ t, 0 < x.adj_factor := by
    unfold fetch_kline_daily at hfetch
    by_cases hke : kline.isEmpty = true
    · rw [if_pos hke] at hfetch
      simp at hfetch
    · rw [if_neg hke] at hfetch
      cases hfa : fetch_adj_factor qfq raw with
      | error e =>
        rw [hfa] at hfetch
        cases hfetch
      | ok adjOpt =>
        rw [hfa] at hfetch
        have hfetch2 : Except.ok (some (toBars s (fillna1 (ffillGo none
            (mergeLeft kline (dfAdjOf kline adjOpt))))))
            = (Except.ok (some t) : Except String (Option (List Bar))) := hfetch
        simp only [Except.ok.injEq, Option.some.injEq] at hfetch2
        subst hfetch2
        intro x hx
        obtain ⟨p, hp, hfac⟩ := toBars_factor hx
        rw [hfac]
        have hadj : ∀ p2 ∈ dfAdjOf kline adjOpt, 0 < p2.2 :=
          dfAdjOf_pos (fun l hle => by
            subst hle
            exact fetch_adj_factor_pos hq hr hfa)
        refine ffill_fillna_pos (mergeLeft kline (dfAdjOf kline adjOpt))
          (fun r2 v hv => ?_) none (fun c hcn => by cases hcn) p hp
        obtain ⟨p2, hp2, hpv⟩ := mergeLeft_some_val hv
        rw [← hpv]
        exact hadj p2 hp2
  refine ⟨hpost, ?_⟩
  intro hsave x hx
  unfold save_to_parquet at hsave
  by_cases hmode : mode = "append"
  · rw [if_pos hmode] at hsave
    cases fs with
    | present existing =>
      simp only [Except.ok.injEq] at hsave
      subst hsave
      have hx2 : x ∈ existing ++ t := dropDupLast_subset (mem_sortByDate.mp hx)
      rcases List.mem_append.mp hx2 with h1 | h2
      · exact hfs x h1
      · exact hpost x h2
    | corrupt => cases hsave
    | absent =>
      simp only [Except.ok.injEq] at hsave
      subst hsave
      exact hpost x hx
  · rw [if_neg hmode] at hsave
    simp only [Except.ok.injEq] at hsave
    subst hsave
    exact hpost x hx

/-- Witness for C5: one raw bar with close 10 and an adjusted close of 20
give the single row `twoFactorBar` with factor 2; the theorem yields its
positivity through an overwrite save onto an absent file. -/
theorem adj_factor_positive_witness : 0 < twoFactorBar.adj_factor :=
  have hfetch : fetch_kline_daily [d1bar] [qfqPos] [d1bar] "000001"
      = .ok (some [twoFactorBar]) := by
    have h : fetch_kline_daily [d1bar] [qfqPos] [d1bar] "000001"
        = .ok (some (toBars "000001" [(d1bar, (20 : ℚ) / 10)])) := rfl
    rw [h]
    norm_num [toBars, d1bar, twoFactorBar]
  (adj_factor_positive [d1bar] [qfqPos] [d1bar] "000001" "overwrite"
    FileState.absent (FileState.present [twoFactorBar]) [twoFactorBar]
    (by
      intro q hq2
      rw [List.mem_singleton.mp hq2]
      norm_num [qfqPos])
    (by
      intro r hr2
      rw [List.mem_singleton.mp hr2]
      norm_num [d1bar])
    (by intro x hx; cases hx)
    hfetch).2 rfl twoFactorBar (List.mem_singleton.mpr rfl)

/-- Claim C5, counterexample to the claim as stated: a provider response
whose adjusted close is 0 (the code never guards the ratio) produces and
persists a row whose adjustment factor is 0, not strictly positive. -/
theorem adj_factor_positive_cex :
    fetch_kline_daily [d1bar] [qfqZero] [d1bar] "000001"
      = .ok (some [zeroFactorBar]) ∧
    save_to_parquet Bar.date [zeroFactorBar] "overwrite" FileState.absent
      = .ok (.present [zeroFactorBar]) ∧
    ¬ (0 < zeroFactorBar.adj_factor) := by
  refine ⟨?_, rfl, by norm_num [zeroFactorBar]⟩
  have h : fetch_kline_daily [d1bar] [qfqZero] [d1bar] "000001"
      = .ok (some (toBars "000001" [(d1bar, (0 : ℚ) / 10)])) := rfl
  rw [h]
  norm_num [toBars, d1bar, zeroFactorBar]

/-! ### Claim C4: what the validator audits -/

/-- Claim C4 (amended).  The validator does not audit the tables the
acquisition pipeline persists: the Persistence Manager writes per-symbol
files under `data/kline_daily` with a `date` column, while the validator
reads per-symbol files under `data/kline_5m` and indexes a `datetime`
column that the written schema does not contain, so for every symbol the
two tools address different files. -/
theorem validator_reads_different_tables :
    FetchKline.KLINE_DIR = "data/kline_daily" ∧
    VerifyData5m.KLINE_DIR = "data/kline_5m" ∧
    (∀ symbol : String, VerifyData5m.filePath symbol ≠ FetchKline.filePath symbol) ∧
    VerifyData5m.datetimeColumn ∉ FetchKline.outputColumns := by
  refine ⟨rfl, rfl, ?_, by decide⟩
  intro symbol h
  have hlen := congrArg String.length h
  simp only [VerifyData5m.filePath, FetchKline.filePath, VerifyData5m.KLINE_DIR,
    FetchKline.KLINE_DIR, String.length_append] at hlen
  have e1 : ("data/kline_5m" : String).length = 13 := rfl
  have e2 : ("data/kline_daily" : String).length = 16 := rfl
  have e3 : ("/" : String).length = 1 := rfl
  have e4 : (".parquet" : String).length = 8 := rfl
  rw [e1, e2, e3, e4] at hlen
  omega

/-- Claim C4, counterexample to the claim as stated: for the validator's
hardcoded default symbol the file it reads is not the file the Persistence
Manager writes, and the time column it reports is absent from the written
schema. -/
theorem validator_reads_different_tables_cex :
    VerifyData5m.filePath "000001" ≠ FetchKline.filePath "000001" ∧
    VerifyData5m.datetimeColumn ∉ FetchKline.outputColumns := by
  exact ⟨by decide, by decide⟩

/-- Witness for C4 at the validator's hardcoded default symbol. -/
theorem validator_reads_different_tables_witness :
    VerifyData5m.filePath "000001" ≠ FetchKline.filePath "000001" :=
  validator_reads_different_tables.2.2.1 "000001"
